import Mathlib

/-!
# The stress writer `nasty.c`

A shallow embedding of `src/container/nasty.c` and the properties of its
retrying full-write loop `do_write` and of the unbounded loop of `main`.

The C program talks to its environment only through `write(2)` and `exit`.
The environment is an oracle `Env` that answers every `write` call from the
history of earlier calls and the call itself; every call is recorded in a
trace.  The `int` locals of `do_write` are integers reduced to 32-bit two's
complement after every arithmetic operation.
-/

namespace Nasty

/-! ## Machine integers -/

/-- Size of the scratch buffer: `#define MB (1024*1024)`. -/
def MB : Nat := 1024 * 1024

/-- Smallest value of the C type `int`. -/
def INT_MIN : Int := -2147483648

/-- Largest value of the C type `int`. -/
def INT_MAX : Int := 2147483647

/-- Conversion of an integer to the C type `int`: reduction modulo `2^32`
into the range `INT_MIN .. INT_MAX`. -/
def toInt (x : Int) : Int := (x + 2147483648) % 4294967296 - 2147483648

/-- Conversion of an `int` to `size_t`, as happens to the third argument of
`write`: reduction modulo `2^64`. -/
def toSize (x : Int) : Int := x % 18446744073709551616

/-! ## The environment: `write` calls and their trace -/

/-- Where the bytes of a `write` call come from: an address inside the block
that `buf` points into, or a string literal of the program. -/
inductive Src where
  | mem (addr : Int)
  | str (bytes : List Nat)
deriving DecidableEq

/-- One call `write(fd, src, count)`. -/
structure Call where
  fd : Int
  src : Src
  count : Int
deriving DecidableEq

/-- One executed call with the value it returned. -/
structure Event where
  call : Call
  result : Int
deriving DecidableEq

/-- The write primitive: it answers a call knowing every earlier event. -/
abbrev Env := List Event → Call → Int

/-- The value of a `write` call as the program receives it: `do_write` stores
it in the `int` variable `ret`, so the answer of the primitive is taken in the
range of `int`. -/
def sys_write (env : Env) (tr : List Event) (c : Call) : Int := toInt (env tr c)

/-- The bytes of the string literal "write failed\n". -/
def diag_bytes : List Nat := "write failed\n".toList.map Char.toNat

/-- The diagnostic call `write(2, "write failed\n", 13)`. -/
def diag_call : Call := ⟨2, Src.str diag_bytes, 13⟩

/-! ## `do_write` -/

/-- The parameters and locals of one activation of `do_write`; pointers are
addresses relative to the start of the scratch block. -/
structure Frame where
  fd : Int
  buf : Int
  buf_len : Int
  buf_ptr : Int
  written : Int
  remaining : Int
  ret : Int
deriving DecidableEq

/-- Where control is after a step of `do_write`. -/
inductive Ctl where
  | looping (f : Frame)
  | returned
  | exited (status : Int)
deriving DecidableEq

/-- Entry of `do_write(fd, buf, buf_len)`: the four initialised locals. -/
def do_write_enter (fd buf buf_len : Int) : Frame :=
  Frame.mk fd buf buf_len buf 0 buf_len 0

/-- The call `write(fd, buf_ptr, remaining)` of the loop body. -/
def data_call (f : Frame) : Call := ⟨f.fd, Src.mem f.buf_ptr, toSize f.remaining⟩

/-- One evaluation of `while (written < buf_len)` and, when it holds, of the
loop body. -/
def do_write_step (env : Env) (tr : List Event) (f : Frame) : List Event × Ctl :=
  if f.written < f.buf_len then
    let ret := sys_write env tr (data_call f)
    let tr1 := tr ++ [⟨data_call f, ret⟩]
    if ret < 0 then
      (tr1 ++ [⟨diag_call, sys_write env tr1 diag_call⟩], Ctl.exited 1)
    else
      (tr1, Ctl.looping
        { f with
          remaining := toInt (f.remaining - ret)
          buf_ptr := f.buf_ptr + ret
          written := toInt (f.written + ret)
          ret := ret })
  else
    (tr, Ctl.returned)

/-- A step of a `do_write` activation together with its trace; a finished
activation stays as it is. -/
def do_write_next (env : Env) (s : List Event × Ctl) : List Event × Ctl :=
  match s with
  | (tr, Ctl.looping f) => do_write_step env tr f
  | s => s

/-- The activation `do_write(fd, buf, buf_len)` after `n` steps, started with
an empty trace. -/
def do_write_run (env : Env) (fd buf buf_len : Int) (n : Nat) : List Event × Ctl :=
  (do_write_next env)^[n] ([], Ctl.looping (do_write_enter fd buf buf_len))

/-! ## `main` -/

/-- A block of memory: its size and its bytes. -/
structure Mem where
  size : Nat
  byte : Nat → Int

/-- A fresh block from `alloca(n)` with indeterminate contents `junk`. -/
def alloca (n : Nat) (junk : Nat → Int) : Mem := ⟨n, junk⟩

/-- The assignment `buf[i] = v`. -/
def Mem.store (m : Mem) (i : Nat) (v : Int) : Mem :=
  ⟨m.size, fun j => if j = i then v else m.byte j⟩

/-- The loop `for (i = 0; i < MB; i++) buf[i] = '\n';` from index `i` on. -/
def main_fill (i : Nat) (buf : Mem) : Mem :=
  if i < MB then main_fill (i + 1) (buf.store i 10) else buf
termination_by MB - i

/-- The two statements of the loop body of `main`: `do_write(1, buf, MB);`
and `do_write(2, buf, MB);`. -/
inductive Site where
  | first
  | second
deriving DecidableEq

/-- The stream a statement of the loop body writes to. -/
def Site.fd : Site → Int
  | Site.first => 1
  | Site.second => 2

/-- The statement executed after a statement of the loop body: the second
after the first, and by `while (1)` the first after the second. -/
def Site.next : Site → Site
  | Site.first => Site.second
  | Site.second => Site.first

/-- Where `main` is: inside the `do_write` of one of the two statements of
the loop body, or the process has terminated. -/
inductive Pc where
  | call (site : Site) (f : Frame)
  | halted (status : Int)
deriving DecidableEq

/-- The state of the process. -/
structure State where
  buf : Mem
  tr : List Event
  pc : Pc

/-- One step of the process inside `while (1) { do_write(1, buf, MB);
do_write(2, buf, MB); }`: a step of the active `do_write`; when it returns,
the next statement calls `do_write` again, and `exit` ends the process. -/
def main_step (env : Env) (s : State) : State :=
  match s.pc with
  | Pc.call site f =>
    match do_write_step env s.tr f with
    | (tr, Ctl.looping g) => ⟨s.buf, tr, Pc.call site g⟩
    | (tr, Ctl.returned) => ⟨s.buf, tr, Pc.call site.next (do_write_enter site.next.fd 0 MB)⟩
    | (tr, Ctl.exited c) => ⟨s.buf, tr, Pc.halted c⟩
  | Pc.halted _ => s

/-- The state in which `main` reaches `while (1)`: the buffer allocated and
filled, nothing written yet, the first `do_write` entered. -/
def main_start (junk : Nat → Int) : State :=
  ⟨main_fill 0 (alloca MB junk), [], Pc.call Site.first (do_write_enter 1 0 MB)⟩

/-- The process after `n` steps of the write loop. -/
def run (env : Env) (junk : Nat → Int) (n : Nat) : State :=
  (main_step env)^[n] (main_start junk)

/-! ## Environments of the scenarios -/

/-- Every call writes all it was asked to write. -/
def env_full : Env := fun _ c => c.count

/-- Every call writes all it was asked to write, but the third call to
stream 1 fails. -/
def env_third_fails : Env := fun tr c =>
  if c.fd = 1 ∧ (tr.filter (fun e => e.call.fd = 1)).length = 2 then -1 else c.count

/-- Every call writes at most 65536 bytes: all it was asked to when that is
less, and 65536 bytes otherwise. -/
def env_pieces : Env := fun _ c => min c.count 65536

/-- Every call writes nothing. -/
def env_zero : Env := fun _ _ => 0

/-- Every call writes one byte. -/
def env_one : Env := fun _ _ => 1

/-- The `k`-th call returns the `k`-th value of `rs`. -/
def env_seq (rs : List Int) : Env := fun tr _ => rs.getD tr.length 0

/-! ## Helpers for stating the properties -/

/-- Whether a call is the data call of `do_write` (its bytes come from the
buffer) and not the diagnostic call (a string literal). -/
def is_data (c : Call) : Bool :=
  match c.src with
  | Src.mem _ => true
  | Src.str _ => false

/-- The frame of `do_write(fd, buf, L)` once `w` bytes have been written and
the last call returned `ret`. -/
def frame_at (fd buf L w ret : Int) : Frame :=
  Frame.mk fd buf L (buf + w) w (L - w) ret

/-- The events of the first `j` calls of `do_write(fd, buf, L)` when the calls
return the values of `rs` in turn. -/
def seq_events (fd buf L : Int) (rs : List Int) (j : Nat) : List Event :=
  (List.range j).map (fun i =>
    ⟨⟨fd, Src.mem (buf + (rs.take i).sum), L - (rs.take i).sum⟩, rs.getD i 0⟩)

/-- The statement of the loop body that makes the `k`-th full write when every
`do_write` needs a single call: the first for even `k`, the second for odd. -/
def site_of (k : Nat) : Site := if k % 2 = 0 then Site.first else Site.second

/-- The event of the `i`-th call of a `do_write` to `fd` whose calls each
transfer 65536 bytes of the 1,048,576-byte buffer. -/
def piece (fd : Int) (i : Nat) : Event :=
  ⟨⟨fd, Src.mem (65536 * (i : Int)), 1048576 - 65536 * (i : Int)⟩, 65536⟩

/-- Whether the byte at address `b` of the block is among the bytes that the
event transferred: those from the address of the call up to its result. -/
def covers (e : Event) (b : Int) : Bool :=
  match e.call.src with
  | Src.mem a => decide (a ≤ b ∧ b < a + e.result)
  | Src.str _ => false

/-! ## Arithmetic of the conversions -/

theorem toInt_of_range (x : Int) (h1 : INT_MIN ≤ x) (h2 : x ≤ INT_MAX) : toInt x = x := by
  unfold INT_MIN at h1
  unfold INT_MAX at h2
  unfold toInt
  omega

theorem toInt_range (x : Int) : INT_MIN ≤ toInt x ∧ toInt x ≤ INT_MAX := by
  unfold INT_MIN INT_MAX toInt
  omega

theorem toSize_of_range (x : Int) (h1 : 0 ≤ x) (h2 : x ≤ INT_MAX) : toSize x = x := by
  unfold INT_MAX at h2
  unfold toSize
  omega

theorem frame_at_zero (fd buf L : Int) : do_write_enter fd buf L = frame_at fd buf L 0 0 := by
  simp [do_write_enter, frame_at]

/-- A call that returns `r` with `0 ≤ r ≤ remaining` advances the frame by `r`. -/
theorem do_write_step_ok (env : Env) (tr : List Event) (fd buf L w ret r : Int)
    (hw0 : 0 ≤ w) (hw : w < L) (hmax : L ≤ INT_MAX)
    (hr : sys_write env tr ⟨fd, Src.mem (buf + w), L - w⟩ = r)
    (hr0 : 0 ≤ r) (hr1 : r ≤ L - w) :
    do_write_step env tr (frame_at fd buf L w ret)
      = (tr ++ [⟨⟨fd, Src.mem (buf + w), L - w⟩, r⟩],
          Ctl.looping (frame_at fd buf L (w + r) r)) := by
  have hs : toSize (L - w) = L - w := toSize_of_range _ (by omega) (by omega)
  have h1 : toInt (w + r) = w + r :=
    toInt_of_range _ (by unfold INT_MIN; omega) (by omega)
  have h2 : toInt (L - w - r) = L - w - r :=
    toInt_of_range _ (by unfold INT_MIN; omega) (by omega)
  simp only [do_write_step, frame_at, data_call, hs, hr, h1, h2, if_pos hw,
    if_neg (not_lt.mpr hr0)]
  simp only [add_assoc, sub_sub]

/-- A frame that has written everything leaves the loop without a call. -/
theorem do_write_step_done (env : Env) (tr : List Event) (fd buf L w ret : Int)
    (hw : L ≤ w) :
    do_write_step env tr (frame_at fd buf L w ret) = (tr, Ctl.returned) := by
  simp [do_write_step, frame_at, not_lt.mpr hw]

/-- A call that returns a negative value is followed by the diagnostic call
and `exit(1)`. -/
theorem do_write_step_fail (env : Env) (tr : List Event) (f : Frame)
    (hw : f.written < f.buf_len) (hr : sys_write env tr (data_call f) < 0) :
    do_write_step env tr f
      = (tr ++ [⟨data_call f, sys_write env tr (data_call f)⟩,
                ⟨diag_call, sys_write env
                  (tr ++ [⟨data_call f, sys_write env tr (data_call f)⟩]) diag_call⟩],
          Ctl.exited 1) := by
  simp [do_write_step, hw, hr]

theorem do_write_step_return (env : Env) (tr : List Event) (f : Frame)
    (h : ¬ f.written < f.buf_len) : do_write_step env tr f = (tr, Ctl.returned) := by
  simp [do_write_step, h]

theorem do_write_run_succ (env : Env) (fd buf L : Int) (n : Nat) :
    do_write_run env fd buf L (n + 1) = do_write_next env (do_write_run env fd buf L n) := by
  simp only [do_write_run, Function.iterate_succ_apply']

theorem run_succ (env : Env) (junk : Nat → Int) (n : Nat) :
    run env junk (n + 1) = main_step env (run env junk n) := by
  simp only [run, Function.iterate_succ_apply']

/-! ## Sums of leading return values -/

theorem sum_take_le_sum (rs : List Int) (hnn : ∀ r ∈ rs, 0 ≤ r) (j : Nat) :
    (rs.take j).sum ≤ rs.sum := by
  have h := List.sum_take_add_sum_drop rs j
  have hd : 0 ≤ (rs.drop j).sum :=
    List.sum_nonneg (fun x hx => hnn x (List.mem_of_mem_drop hx))
  omega

theorem sum_take_succ_getD (rs : List Int) (j : Nat) (hj : j < rs.length) :
    (rs.take (j + 1)).sum = (rs.take j).sum + rs.getD j 0 := by
  rw [List.sum_take_succ rs j hj, List.getD_eq_getElem rs 0 hj]

theorem seq_events_succ (fd buf L : Int) (rs : List Int) (j : Nat) :
    seq_events fd buf L rs (j + 1)
      = seq_events fd buf L rs j
        ++ [⟨⟨fd, Src.mem (buf + (rs.take j).sum), L - (rs.take j).sum⟩, rs.getD j 0⟩] := by
  simp [seq_events, List.range_succ]

theorem seq_events_length (fd buf L : Int) (rs : List Int) (j : Nat) :
    (seq_events fd buf L rs j).length = j := by
  simp [seq_events]

/-! ## The full-write loop against a sequence of return values -/

/-- While the running total of the returned values stays below `L`, the
activation is in its loop at exactly that total. -/
theorem do_write_run_seq (fd buf L : Int) (rs : List Int) (hmax : L ≤ INT_MAX)
    (hnn : ∀ r ∈ rs, 0 ≤ r) (hsum : rs.sum = L) (j : Nat) (hj : j ≤ rs.length)
    (hlt : ∀ i, i < j → (rs.take i).sum < L) :
    ∃ ret, do_write_run (env_seq rs) fd buf L j
      = (seq_events fd buf L rs j, Ctl.looping (frame_at fd buf L (rs.take j).sum ret)) := by
  induction j with
  | zero =>
    exact ⟨0, by simp [do_write_run, seq_events, frame_at_zero]⟩
  | succ j ih =>
    obtain ⟨ret, hrun⟩ := ih (by omega) (fun i hi => hlt i (by omega))
    have hjl : j < rs.length := by omega
    have hw : (rs.take j).sum < L := hlt j (by omega)
    have h0 : 0 ≤ (rs.take j).sum :=
      List.sum_nonneg (fun x hx => hnn x (List.mem_of_mem_take hx))
    have hr0 : 0 ≤ rs.getD j 0 := by
      rw [List.getD_eq_getElem rs 0 hjl]
      exact hnn _ (List.getElem_mem _)
    have hnext := sum_take_succ_getD rs j hjl
    have hle := sum_take_le_sum rs hnn (j + 1)
    have hr : sys_write (env_seq rs) (seq_events fd buf L rs j)
        ⟨fd, Src.mem (buf + (rs.take j).sum), L - (rs.take j).sum⟩ = rs.getD j 0 := by
      simp only [sys_write, env_seq, seq_events_length]
      exact toInt_of_range _ (by unfold INT_MIN; omega) (by omega)
    refine ⟨rs.getD j 0, ?_⟩
    rw [do_write_run_succ, hrun]
    simp only [do_write_next]
    rw [do_write_step_ok _ _ fd buf L _ ret (rs.getD j 0) h0 hw hmax hr hr0 (by omega),
      seq_events_succ, hnext]

/-- Once an activation has returned it takes no further step. -/
theorem do_write_run_returned (env : Env) (fd buf L : Int) (tr : List Event) (k : Nat)
    (h : do_write_run env fd buf L k = (tr, Ctl.returned)) (n : Nat) (hn : k ≤ n) :
    do_write_run env fd buf L n = (tr, Ctl.returned) := by
  induction n with
  | zero =>
    have hk : k = 0 := by omega
    subst hk
    exact h
  | succ n ih =>
    by_cases hkn : k = n + 1
    · subst hkn
      exact h
    · rw [do_write_run_succ, ih (by omega)]
      rfl

/-- C1: for a length `0 < L` (an `int`) and a sequence `rs` of non-negative
return values with sum `L`, `do_write(fd, buf, L)` run against `rs` issues
exactly `k` calls, `k` being the first number of values whose total is `L`:
up to `k` steps it is in its loop with `written`, and the cursor, equal to the
total returned so far (never on the abort path), the totals do not decrease
from call to call, after `k` calls `written = L`, and from step `k + 1` on it
has returned with exactly those `k` calls in its trace. -/
theorem do_write_transfers_all (fd buf L : Int) (rs : List Int) (hL : 0 < L)
    (hmax : L ≤ INT_MAX) (hnn : ∀ r ∈ rs, 0 ≤ r) (hsum : rs.sum = L) :
    ∃ k, 0 < k ∧ k ≤ rs.length ∧ (rs.take k).sum = L ∧
      (∀ j, j < k → (rs.take j).sum < L) ∧
      (∀ j, j < k → (rs.take j).sum ≤ (rs.take (j + 1)).sum) ∧
      (∀ j, j ≤ k → ∃ ret, do_write_run (env_seq rs) fd buf L j
        = (seq_events fd buf L rs j,
            Ctl.looping (Frame.mk fd buf L (buf + (rs.take j).sum) (rs.take j).sum
              (L - (rs.take j).sum) ret))) ∧
      (∀ n, k < n → do_write_run (env_seq rs) fd buf L n
        = (seq_events fd buf L rs k, Ctl.returned)) := by
  classical
  have hex : ∃ j, j ≤ rs.length ∧ L ≤ (rs.take j).sum :=
    ⟨rs.length, le_refl _, by simp [hsum]⟩
  have hk := Nat.find_spec hex
  have hmin : ∀ j, j < Nat.find hex → (rs.take j).sum < L := by
    intro j hj
    have h := Nat.find_min hex hj
    by_contra hc
    exact h ⟨by omega, by omega⟩
  have heq : (rs.take (Nat.find hex)).sum = L := by
    have := sum_take_le_sum rs hnn (Nat.find hex)
    omega
  have hloop := fun j (hj : j ≤ Nat.find hex) =>
    do_write_run_seq fd buf L rs hmax hnn hsum j (by omega)
      (fun i hi => hmin i (by omega))
  refine ⟨Nat.find hex, ?_, hk.1, heq, hmin, ?_, hloop, ?_⟩
  · rcases Nat.eq_zero_or_pos (Nat.find hex) with h0 | h0
    · rw [h0] at heq
      simp at heq
      omega
    · exact h0
  · intro j hj
    rw [sum_take_succ_getD rs j (by omega), List.getD_eq_getElem rs 0 (by omega)]
    have := hnn _ (List.getElem_mem (show j < rs.length by omega))
    omega
  · intro n hn
    obtain ⟨ret, hrun⟩ := hloop (Nat.find hex) (le_refl _)
    have hstep : do_write_run (env_seq rs) fd buf L (Nat.find hex + 1)
        = (seq_events fd buf L rs (Nat.find hex), Ctl.returned) := by
      rw [do_write_run_succ, hrun]
      simp only [do_write_next]
      exact do_write_step_done _ _ fd buf L _ ret (by omega)
    exact do_write_run_returned _ fd buf L _ _ hstep n (by omega)

/-- C1 at `L = 4` with return values `1, 0, 3`. -/
theorem do_write_transfers_all_witness :
    (0 : Int) < 4 ∧ (4 : Int) ≤ INT_MAX ∧ (∀ r ∈ ([1, 0, 3] : List Int), 0 ≤ r) ∧
    ([1, 0, 3] : List Int).sum = 4 ∧
    ∃ k, 0 < k ∧ k ≤ ([1, 0, 3] : List Int).length ∧ (([1, 0, 3] : List Int).take k).sum = 4 ∧
      (∀ j, j < k → (([1, 0, 3] : List Int).take j).sum < 4) ∧
      (∀ j, j < k → (([1, 0, 3] : List Int).take j).sum
        ≤ (([1, 0, 3] : List Int).take (j + 1)).sum) ∧
      (∀ j, j ≤ k → ∃ ret, do_write_run (env_seq [1, 0, 3]) 1 0 4 j
        = (seq_events 1 0 4 [1, 0, 3] j,
            Ctl.looping (Frame.mk 1 0 4 (0 + (([1, 0, 3] : List Int).take j).sum)
              (([1, 0, 3] : List Int).take j).sum
              (4 - (([1, 0, 3] : List Int).take j).sum) ret))) ∧
      (∀ n, k < n → do_write_run (env_seq [1, 0, 3]) 1 0 4 n
        = (seq_events 1 0 4 [1, 0, 3] k, Ctl.returned)) :=
  ⟨by decide, by decide, by decide, by decide,
    do_write_transfers_all 1 0 4 [1, 0, 3] (by decide) (by decide) (by decide) (by decide)⟩

/-! ## A write primitive that makes no progress -/

/-- C10: a result of 0 is a successful write without progress.  For an `int`
length `0 < L`, when every call returns 0, after `n` steps `do_write(fd, buf,
L)` has made exactly `n` calls, each the same request (same `fd`, offset 0,
count `L`), and is still in its loop in the frame it started in: it has
neither returned nor aborted. -/
theorem do_write_zero_results (env : Env) (fd buf L : Int) (hL : 0 < L)
    (hmax : L ≤ INT_MAX) (h0 : ∀ tr c, sys_write env tr c = 0) (n : Nat) :
    do_write_run env fd buf L n
      = (List.replicate n ⟨⟨fd, Src.mem buf, L⟩, 0⟩,
          Ctl.looping (do_write_enter fd buf L)) := by
  induction n with
  | zero => simp [do_write_run]
  | succ n ih =>
    rw [do_write_run_succ, ih]
    simp only [do_write_next, frame_at_zero]
    rw [do_write_step_ok env _ fd buf L 0 0 0 (le_refl _) hL hmax (h0 _ _) (le_refl _)
      (by omega)]
    simp [List.replicate_succ']

/-- C10 at `L = 5` on stream 1 with the primitive that always returns 0. -/
theorem do_write_zero_results_witness :
    (0 : Int) < 5 ∧ (5 : Int) ≤ INT_MAX ∧ (∀ tr c, sys_write env_zero tr c = 0) ∧
    do_write_run env_zero 1 0 5 3
      = (List.replicate 3 ⟨⟨1, Src.mem 0, 5⟩, 0⟩, Ctl.looping (do_write_enter 1 0 5)) :=
  ⟨by decide, by decide, fun _ _ => rfl,
    do_write_zero_results env_zero 1 0 5 (by decide) (by decide) (fun _ _ => rfl) 3⟩

/-! ## Termination of the full-write loop under progress -/

/-- While every earlier state was in the loop below `L`, and every call
returns between 1 and its count, after `n` steps the activation is in its loop
having written at least `n` and at most `L` bytes: the sum of the results of
its `n` calls, each of which asked for the tail of the buffer. -/
theorem do_write_run_progress (env : Env) (fd buf L : Int) (hmax : L ≤ INT_MAX)
    (henv : ∀ tr c, 1 ≤ c.count → 1 ≤ sys_write env tr c ∧ sys_write env tr c ≤ c.count)
    (n : Nat)
    (hlt : ∀ m, m < n → ∃ tr f, do_write_run env fd buf L m = (tr, Ctl.looping f)
      ∧ f.written < L) :
    ∃ tr w ret, do_write_run env fd buf L n = (tr, Ctl.looping (frame_at fd buf L w ret))
      ∧ (n : Int) ≤ w ∧ (0 < L → w ≤ L) ∧ tr.length = n ∧ (tr.map Event.result).sum = w
      ∧ ∀ e ∈ tr, ∃ off, e.call = ⟨fd, Src.mem (buf + off), L - off⟩ ∧ 0 ≤ off
          ∧ 1 ≤ e.result ∧ off + e.result ≤ L := by
  induction n with
  | zero =>
    exact ⟨[], 0, 0, by simp [do_write_run, frame_at_zero], by simp, fun h => by omega,
      rfl, rfl, by simp⟩
  | succ n ih =>
    obtain ⟨tr, w, ret, hrun, hnw, hwL, hlen, hsum, hev⟩ := ih (fun m hm => hlt m (by omega))
    obtain ⟨tr1, f1, hrun1, hw1⟩ := hlt n (by omega)
    rw [hrun] at hrun1
    have hf : f1 = frame_at fd buf L w ret := by
      injection hrun1 with _ h2
      injection h2 with h3
      exact h3.symm
    have hw : w < L := by
      rw [hf] at hw1
      exact hw1
    have hs : toSize (L - w) = L - w := toSize_of_range _ (by omega) (by omega)
    have hr := henv tr ⟨fd, Src.mem (buf + w), L - w⟩ (by show 1 ≤ L - w; omega)
    have hr1 : sys_write env tr ⟨fd, Src.mem (buf + w), L - w⟩ ≤ L - w := hr.2
    have hfin : w + sys_write env tr ⟨fd, Src.mem (buf + w), L - w⟩ ≤ L := by omega
    refine ⟨tr ++ [⟨⟨fd, Src.mem (buf + w), L - w⟩,
        sys_write env tr ⟨fd, Src.mem (buf + w), L - w⟩⟩],
      w + sys_write env tr ⟨fd, Src.mem (buf + w), L - w⟩,
      sys_write env tr ⟨fd, Src.mem (buf + w), L - w⟩, ?_, ?_, ?_, ?_, ?_, ?_⟩
    · rw [do_write_run_succ, hrun]
      simp only [do_write_next]
      exact do_write_step_ok env tr fd buf L w ret _ (by omega) hw hmax rfl (by omega) hr1
    · push_cast
      omega
    · intro _
      omega
    · simp [hlen]
    · simp [hsum]
    · intro e he
      rcases List.mem_append.mp he with h | h
      · exact hev e h
      · rw [List.mem_singleton] at h
        subst h
        exact ⟨w, rfl, by omega, hr.1, hfin⟩

/-- C9: for an `int` length `0 < L`, when every call that asks for at least
one byte returns a value between 1 and the count it asked for,
`do_write(fd, buf, L)` leaves its loop after `k ≤ L` calls: after `k` steps
`written = L` and `remaining = 0`, the results of the `k` calls add up to `L`,
every call asked for the tail `L - off` at an offset `0 ≤ off` of the buffer
(so never past its end), from step `k + 1` on the activation has returned, and
at no step is it on the abort path. -/
theorem do_write_terminates (env : Env) (fd buf L : Int) (hL : 0 < L) (hmax : L ≤ INT_MAX)
    (henv : ∀ tr c, 1 ≤ c.count → 1 ≤ sys_write env tr c ∧ sys_write env tr c ≤ c.count) :
    ∃ (k : Nat) (tr : List Event) (ret : Int), 0 < k ∧ (k : Int) ≤ L ∧ tr.length = k ∧
      (tr.map Event.result).sum = L ∧
      (∀ e ∈ tr, ∃ off, e.call = ⟨fd, Src.mem (buf + off), L - off⟩ ∧ 0 ≤ off
          ∧ 1 ≤ e.result ∧ off + e.result ≤ L) ∧
      do_write_run env fd buf L k = (tr, Ctl.looping (Frame.mk fd buf L (buf + L) L 0 ret)) ∧
      (∀ n, k < n → do_write_run env fd buf L n = (tr, Ctl.returned)) ∧
      (∀ n c, (do_write_run env fd buf L n).2 ≠ Ctl.exited c) := by
  classical
  have hex : ∃ n, ¬ ∃ tr f, do_write_run env fd buf L n = (tr, Ctl.looping f)
      ∧ f.written < L := by
    by_contra hall
    push_neg at hall
    obtain ⟨tr, w, ret, hrun, hnw, hwL, _, _, _⟩ :=
      do_write_run_progress env fd buf L hmax henv (L.toNat + 1) (fun m _ => hall m)
    have := hwL hL
    push_cast at hnw
    omega
  have hmin : ∀ m, m < Nat.find hex → ∃ tr f,
      do_write_run env fd buf L m = (tr, Ctl.looping f) ∧ f.written < L := by
    intro m hm
    exact not_not.mp (Nat.find_min hex hm)
  obtain ⟨tr, w, ret, hrun, hnw, hwL, hlen, hsum, hev⟩ :=
    do_write_run_progress env fd buf L hmax henv (Nat.find hex) hmin
  have hge : L ≤ w := by
    by_contra hc
    exact Nat.find_spec hex ⟨tr, _, hrun, by show w < L; omega⟩
  have hw : w = L := le_antisymm (hwL hL) hge
  subst hw
  have hret : ∀ n, Nat.find hex < n → do_write_run env fd buf w n = (tr, Ctl.returned) := by
    intro n hn
    have hstep : do_write_run env fd buf w (Nat.find hex + 1) = (tr, Ctl.returned) := by
      rw [do_write_run_succ, hrun]
      simp only [do_write_next]
      exact do_write_step_done env tr fd buf w w ret (le_refl _)
    exact do_write_run_returned env fd buf w tr _ hstep n (by omega)
  refine ⟨Nat.find hex, tr, ret, ?_, hnw, hlen, hsum, hev, ?_, hret, ?_⟩
  · rcases Nat.eq_zero_or_pos (Nat.find hex) with h0 | h0
    · rw [h0] at hlen
      rw [List.length_eq_zero.mp hlen] at hsum
      simp at hsum
      omega
    · exact h0
  · rw [hrun]
    simp [frame_at]
  · intro n c hc
    by_cases hn : n < Nat.find hex
    · obtain ⟨tr1, f1, h1, _⟩ := hmin n hn
      rw [h1] at hc
      exact Ctl.noConfusion hc
    · by_cases hn2 : n = Nat.find hex
      · rw [hn2, hrun] at hc
        exact Ctl.noConfusion hc
      · rw [hret n (by omega)] at hc
        exact Ctl.noConfusion hc

/-- C9 at `L = 3` on stream 1 with the primitive that writes one byte per call. -/
theorem do_write_terminates_witness :
    (0 : Int) < 3 ∧ (3 : Int) ≤ INT_MAX ∧
    (∀ tr c, 1 ≤ c.count → 1 ≤ sys_write env_one tr c ∧ sys_write env_one tr c ≤ c.count) ∧
    ∃ (k : Nat) (tr : List Event) (ret : Int), 0 < k ∧ (k : Int) ≤ 3 ∧ tr.length = k ∧
      (tr.map Event.result).sum = 3 ∧
      (∀ e ∈ tr, ∃ off, e.call = ⟨1, Src.mem (0 + off), 3 - off⟩ ∧ 0 ≤ off
          ∧ 1 ≤ e.result ∧ off + e.result ≤ 3) ∧
      do_write_run env_one 1 0 3 k = (tr, Ctl.looping (Frame.mk 1 0 3 (0 + 3) 3 0 ret)) ∧
      (∀ n, k < n → do_write_run env_one 1 0 3 n = (tr, Ctl.returned)) ∧
      (∀ n c, (do_write_run env_one 1 0 3 n).2 ≠ Ctl.exited c) :=
  ⟨by decide, by decide, fun _ _ h => ⟨(by decide : (1 : Int) ≤ toInt 1), h⟩,
    do_write_terminates env_one 1 0 3 (by decide) (by decide) (fun _ _ h => ⟨(by decide : (1 : Int) ≤ toInt 1), h⟩)⟩

/-! ## The request of every call is the remaining tail -/

/-- A call that does not return a negative value keeps the activation in its
loop, with the locals updated by the value returned. -/
theorem do_write_step_loop (env : Env) (tr : List Event) (f : Frame)
    (hw : f.written < f.buf_len) (hr : ¬ sys_write env tr (data_call f) < 0) :
    do_write_step env tr f
      = (tr ++ [⟨data_call f, sys_write env tr (data_call f)⟩],
          Ctl.looping (Frame.mk f.fd f.buf f.buf_len
            (f.buf_ptr + sys_write env tr (data_call f))
            (toInt (f.written + sys_write env tr (data_call f)))
            (toInt (f.remaining - sys_write env tr (data_call f)))
            (sys_write env tr (data_call f)))) := by
  simp [do_write_step, hw, hr]

/-- When no call so far has reported more bytes than it was asked for, the
frame the loop of `do_write(fd, buf, L)` is in has the cursor at `written`
and `written + remaining = L`. -/
theorem do_write_run_frame (env : Env) (fd buf L : Int) (hL : 0 < L) (hmax : L ≤ INT_MAX)
    (n : Nat) :
    ∀ tr f, do_write_run env fd buf L n = (tr, Ctl.looping f) →
      (∀ e ∈ tr, e.result ≤ e.call.count) →
      ∃ w ret, f = frame_at fd buf L w ret ∧ 0 ≤ w ∧ w ≤ L := by
  induction n with
  | zero =>
    intro tr f h _
    simp only [do_write_run, Function.iterate_zero, id_eq, Prod.mk.injEq,
      Ctl.looping.injEq] at h
    exact ⟨0, 0, by rw [← h.2, frame_at_zero], le_refl _, by omega⟩
  | succ n ih =>
    intro tr f h hconf
    rw [do_write_run_succ] at h
    rcases hprev : do_write_run env fd buf L n with ⟨tr0, c0⟩
    rw [hprev] at h
    cases c0 with
    | returned => simp [do_write_next] at h
    | exited c => simp [do_write_next] at h
    | looping f0 =>
      simp only [do_write_next] at h
      by_cases hw : f0.written < f0.buf_len
      · by_cases hr : sys_write env tr0 (data_call f0) < 0
        · rw [do_write_step_fail env tr0 f0 hw hr] at h
          simp at h
        · rw [do_write_step_loop env tr0 f0 hw hr] at h
          simp only [Prod.mk.injEq, Ctl.looping.injEq] at h
          obtain ⟨htr, hf⟩ := h
          subst htr
          obtain ⟨w, ret, hf0, hw0, hwL⟩ :=
            ih tr0 f0 hprev (fun e he => hconf e (List.mem_append_left _ he))
          subst hf0
          have hwlt : w < L := hw
          have hs : toSize (L - w) = L - w := toSize_of_range _ (by omega) (by omega)
          have hcall : data_call (frame_at fd buf L w ret) = ⟨fd, Src.mem (buf + w), L - w⟩ := by
            simp only [data_call, frame_at, hs]
          rw [hcall] at hr hf
          have hr1 : sys_write env tr0 ⟨fd, Src.mem (buf + w), L - w⟩ ≤ L - w := by
            have := hconf ⟨data_call (frame_at fd buf L w ret),
              sys_write env tr0 (data_call (frame_at fd buf L w ret))⟩ (by simp)
            rw [hcall] at this
            exact this
          have h1 : toInt (w + sys_write env tr0 ⟨fd, Src.mem (buf + w), L - w⟩)
              = w + sys_write env tr0 ⟨fd, Src.mem (buf + w), L - w⟩ :=
            toInt_of_range _ (by unfold INT_MIN; omega) (by omega)
          have h2 : toInt (L - (w + sys_write env tr0 ⟨fd, Src.mem (buf + w), L - w⟩))
              = L - (w + sys_write env tr0 ⟨fd, Src.mem (buf + w), L - w⟩) :=
            toInt_of_range _ (by unfold INT_MIN; omega) (by omega)
          refine ⟨w + sys_write env tr0 ⟨fd, Src.mem (buf + w), L - w⟩,
            sys_write env tr0 ⟨fd, Src.mem (buf + w), L - w⟩, ?_, by omega, by omega⟩
          rw [← hf]
          simp only [frame_at, h1, h2, add_assoc, sub_sub]
      · rw [do_write_step_return env tr0 f0 hw] at h
        simp at h

/-- C4: in `do_write(fd, buf, L)` for an `int` length `0 < L`, take any state
in which the loop is about to issue a call, none of the calls before it having
reported more bytes than it was asked for.  The cursor is at offset
`written ≥ 0` of the buffer, `cursor + remaining = L`, and the call, which
the step appends to the trace, is `write(fd, cursor, remaining)`.  When that
call returns `r ≥ 0` with `written + r < L`, the step does not abort: it
stays in the loop, and the call after it is `write(fd, cursor + r,
remaining - r)`. -/
theorem do_write_requests_tail (env : Env) (fd buf L : Int) (hL : 0 < L) (hmax : L ≤ INT_MAX)
    (n : Nat) (tr : List Event) (f : Frame)
    (hrun : do_write_run env fd buf L n = (tr, Ctl.looping f))
    (hconf : ∀ e ∈ tr, e.result ≤ e.call.count)
    (hlt : f.written < f.buf_len) :
    f.buf_ptr = buf + f.written ∧ 0 ≤ f.written ∧ f.written + f.remaining = L ∧
    data_call f = ⟨fd, Src.mem f.buf_ptr, f.remaining⟩ ∧
    (∃ rest, (do_write_run env fd buf L (n + 1)).1
      = tr ++ ⟨data_call f, sys_write env tr (data_call f)⟩ :: rest) ∧
    ∀ r, sys_write env tr (data_call f) = r → 0 ≤ r → f.written + r < L →
      ∃ g, do_write_run env fd buf L (n + 1) = (tr ++ [⟨data_call f, r⟩], Ctl.looping g) ∧
        g.written < g.buf_len ∧
        data_call g = ⟨fd, Src.mem (f.buf_ptr + r), f.remaining - r⟩ := by
  obtain ⟨w, ret, hf, hw0, hwL⟩ := do_write_run_frame env fd buf L hL hmax n tr f hrun hconf
  subst hf
  have hw : w < L := hlt
  have hs : toSize (L - w) = L - w := toSize_of_range _ (by omega) (by omega)
  have hcall : data_call (frame_at fd buf L w ret) = ⟨fd, Src.mem (buf + w), L - w⟩ := by
    simp only [data_call, frame_at, hs]
  have hnext : do_write_run env fd buf L (n + 1)
      = do_write_step env tr (frame_at fd buf L w ret) := by
    rw [do_write_run_succ, hrun]
    rfl
  refine ⟨rfl, hw0, by show w + (L - w) = L; omega, hcall, ?_, ?_⟩
  · rw [hnext]
    by_cases hr : sys_write env tr (data_call (frame_at fd buf L w ret)) < 0
    · rw [do_write_step_fail env tr _ hw hr]
      exact ⟨_, rfl⟩
    · rw [do_write_step_loop env tr _ hw hr]
      exact ⟨[], rfl⟩
  · intro r hr hr0 hlt2
    have hlt3 : w + r < L := hlt2
    rw [hcall] at hr
    rw [hnext, do_write_step_ok env tr fd buf L w ret r hw0 hw hmax hr hr0 (by omega), hcall]
    refine ⟨_, rfl, hlt3, ?_⟩
    have hs2 : toSize (L - (w + r)) = L - w - r := by
      rw [toSize_of_range _ (by omega) (by omega)]
      omega
    simp only [data_call, frame_at, hs2, add_assoc]

/-- C4 at `L = 5` on stream 1 with the primitive that writes one byte per
call, at the state after two calls. -/
theorem do_write_requests_tail_witness :
    (0 : Int) < 5 ∧ (5 : Int) ≤ INT_MAX ∧
    do_write_run env_one 1 0 5 2
      = ([⟨⟨1, Src.mem 0, 5⟩, 1⟩, ⟨⟨1, Src.mem 1, 4⟩, 1⟩],
          Ctl.looping (Frame.mk 1 0 5 2 2 3 1)) ∧
    (∀ e ∈ ([⟨⟨1, Src.mem 0, 5⟩, 1⟩, ⟨⟨1, Src.mem 1, 4⟩, 1⟩] : List Event),
      e.result ≤ e.call.count) ∧
    (2 : Int) < 5 ∧
    ((2 : Int) = 0 + 2 ∧ (0 : Int) ≤ 2 ∧ (2 : Int) + 3 = 5 ∧
      data_call (Frame.mk 1 0 5 2 2 3 1) = ⟨1, Src.mem 2, 3⟩ ∧
      (∃ rest, (do_write_run env_one 1 0 5 (2 + 1)).1
        = [⟨⟨1, Src.mem 0, 5⟩, 1⟩, ⟨⟨1, Src.mem 1, 4⟩, 1⟩]
          ++ ⟨data_call (Frame.mk 1 0 5 2 2 3 1),
              sys_write env_one [⟨⟨1, Src.mem 0, 5⟩, 1⟩, ⟨⟨1, Src.mem 1, 4⟩, 1⟩]
                (data_call (Frame.mk 1 0 5 2 2 3 1))⟩ :: rest) ∧
      ∀ r, sys_write env_one [⟨⟨1, Src.mem 0, 5⟩, 1⟩, ⟨⟨1, Src.mem 1, 4⟩, 1⟩]
          (data_call (Frame.mk 1 0 5 2 2 3 1)) = r → 0 ≤ r → 2 + r < 5 →
        ∃ g, do_write_run env_one 1 0 5 (2 + 1)
            = ([⟨⟨1, Src.mem 0, 5⟩, 1⟩, ⟨⟨1, Src.mem 1, 4⟩, 1⟩]
                ++ [⟨data_call (Frame.mk 1 0 5 2 2 3 1), r⟩], Ctl.looping g) ∧
          g.written < g.buf_len ∧
          data_call g = ⟨1, Src.mem (2 + r), 3 - r⟩) :=
  ⟨by decide, by decide, by decide, by decide, by decide,
    do_write_requests_tail env_one 1 0 5 (by decide) (by decide) 2
      [⟨⟨1, Src.mem 0, 5⟩, 1⟩, ⟨⟨1, Src.mem 1, 4⟩, 1⟩]
      (Frame.mk 1 0 5 2 2 3 1) (by decide) (by decide) (by decide)⟩

/-! ## Steps of the process -/

theorem MB_val : (MB : Int) = 1048576 := by decide

theorem diag_bytes_val :
    diag_bytes = [119, 114, 105, 116, 101, 32, 102, 97, 105, 108, 101, 100, 10] := by
  decide

theorem main_step_looping (env : Env) (s : State) (site : Site) (f g : Frame)
    (tr : List Event) (hpc : s.pc = Pc.call site f)
    (h : do_write_step env s.tr f = (tr, Ctl.looping g)) :
    main_step env s = ⟨s.buf, tr, Pc.call site g⟩ := by
  simp [main_step, hpc, h]

theorem main_step_returned (env : Env) (s : State) (site : Site) (f : Frame)
    (tr : List Event) (hpc : s.pc = Pc.call site f)
    (h : do_write_step env s.tr f = (tr, Ctl.returned)) :
    main_step env s = ⟨s.buf, tr, Pc.call site.next (do_write_enter site.next.fd 0 MB)⟩ := by
  simp [main_step, hpc, h]

theorem main_step_exited (env : Env) (s : State) (site : Site) (f : Frame)
    (tr : List Event) (c : Int) (hpc : s.pc = Pc.call site f)
    (h : do_write_step env s.tr f = (tr, Ctl.exited c)) :
    main_step env s = ⟨s.buf, tr, Pc.halted c⟩ := by
  simp [main_step, hpc, h]

theorem main_step_halted (env : Env) (s : State) (c : Int) (hpc : s.pc = Pc.halted c) :
    main_step env s = s := by
  simp [main_step, hpc]

/-- No step of the process touches the buffer. -/
theorem main_step_buf (env : Env) (s : State) : (main_step env s).buf = s.buf := by
  unfold main_step
  split
  · split <;> rfl
  · rfl

theorem run_buf (env : Env) (junk : Nat → Int) (n : Nat) :
    (run env junk n).buf = main_fill 0 (alloca MB junk) := by
  induction n with
  | zero => rfl
  | succ n ih => rw [run_succ, main_step_buf, ih]

/-- A terminated process stays as it is. -/
theorem run_halted (env : Env) (junk : Nat → Int) (n : Nat) (c : Int)
    (h : (run env junk n).pc = Pc.halted c) (m : Nat) (hm : n ≤ m) :
    run env junk m = run env junk n := by
  induction m with
  | zero =>
    have : n = 0 := by omega
    rw [this]
  | succ m ih =>
    by_cases hnm : n = m + 1
    · rw [hnm]
    · rw [run_succ, ih (by omega)]
      exact main_step_halted env _ c h

/-- The trace and the control point of a step depend on the trace and the
control point only. -/
theorem main_step_obs (env : Env) (s t : State) (htr : s.tr = t.tr) (hpc : s.pc = t.pc) :
    (main_step env s).tr = (main_step env t).tr
      ∧ (main_step env s).pc = (main_step env t).pc := by
  obtain ⟨sb, str, spc⟩ := s
  obtain ⟨tb, ttr, tpc⟩ := t
  simp only at htr hpc
  subst htr
  subst hpc
  cases spc with
  | halted c => exact ⟨rfl, rfl⟩
  | call site f =>
    simp only [main_step]
    rcases do_write_step env str f with ⟨tr, c⟩
    cases c <;> exact ⟨rfl, rfl⟩

/-- The contents the buffer had before it was filled do not show in the trace
or in the control point. -/
theorem run_obs (env : Env) (junk junk2 : Nat → Int) (n : Nat) :
    (run env junk n).tr = (run env junk2 n).tr
      ∧ (run env junk n).pc = (run env junk2 n).pc := by
  induction n with
  | zero => constructor <;> simp [run, main_start]
  | succ n ih =>
    rw [run_succ, run_succ]
    exact main_step_obs env _ _ ih.1 ih.2

/-! ## The scratch buffer -/

theorem main_fill_spec (k : Nat) : ∀ (i : Nat) (m : Mem), MB - i = k →
    (main_fill i m).size = m.size
      ∧ ∀ j, (main_fill i m).byte j = if i ≤ j ∧ j < MB then 10 else m.byte j := by
  induction k with
  | zero =>
    intro i m h
    have hi : ¬ i < MB := by omega
    rw [main_fill, if_neg hi]
    refine ⟨rfl, fun j => ?_⟩
    rw [if_neg (by omega)]
  | succ k ih =>
    intro i m h
    have hi : i < MB := by omega
    rw [main_fill, if_pos hi]
    obtain ⟨h1, h2⟩ := ih (i + 1) (m.store i 10) (by omega)
    refine ⟨h1, fun j => ?_⟩
    rw [h2 j]
    by_cases hj : j = i
    · subst hj
      simp [Mem.store, hi]
    · by_cases hj2 : i ≤ j ∧ j < MB
      · rw [if_pos hj2, if_pos ⟨by omega, hj2.2⟩]
      · rw [if_neg hj2, if_neg (by omega)]
        simp [Mem.store, hj]

/-- C3: in every state the process reaches from the start of its write loop,
whatever the write primitive returns and whatever the block held before it
was filled, the scratch buffer is the one the fill loop of `main` produced,
its size is 1,048,576 bytes and each of these bytes is `0x0A`. -/
theorem buffer_stays_newlines (env : Env) (junk : Nat → Int) (n : Nat) :
    (run env junk n).buf = (run env junk 0).buf ∧
    (run env junk n).buf.size = 1048576 ∧
    ∀ i, i < 1048576 → (run env junk n).buf.byte i = 0x0A := by
  obtain ⟨h1, h2⟩ := main_fill_spec MB 0 (alloca MB junk) rfl
  refine ⟨by rw [run_buf, run_buf], ?_, ?_⟩
  · rw [run_buf, h1]
    rfl
  · intro i hi
    rw [run_buf, h2 i, if_pos ⟨Nat.zero_le _, hi⟩]

/-! ## The fatal path -/

/-- C2: in every run of the process, at every state where the active
`do_write` (of either statement of the loop, with any frame) issues its data
call and that call returns a negative value, the step appends to the trace
that call and right after it the call `write(2, "write failed\n", 13)`, whose
13 bytes are the text of the literal, and ends in `exit(1)`; every later state
is that same state, so no further call is made. -/
theorem negative_write_is_fatal (env : Env) (junk : Nat → Int) (n : Nat) (site : Site)
    (f : Frame) (hpc : (run env junk n).pc = Pc.call site f)
    (hlt : f.written < f.buf_len)
    (hneg : sys_write env (run env junk n).tr (data_call f) < 0) :
    (run env junk (n + 1)).tr
      = (run env junk n).tr
        ++ [⟨data_call f, sys_write env (run env junk n).tr (data_call f)⟩,
            ⟨⟨2, Src.str ("write failed\n".toList.map Char.toNat), 13⟩,
              sys_write env ((run env junk n).tr
                ++ [⟨data_call f, sys_write env (run env junk n).tr (data_call f)⟩])
                diag_call⟩] ∧
    ("write failed\n".toList.map Char.toNat).length = 13 ∧
    (run env junk (n + 1)).pc = Pc.halted 1 ∧
    ∀ m, n + 1 ≤ m → run env junk m = run env junk (n + 1) := by
  have hstep := main_step_exited env (run env junk n) site f _ 1 hpc
    (do_write_step_fail env _ f hlt hneg)
  rw [← run_succ] at hstep
  have hpc1 : (run env junk (n + 1)).pc = Pc.halted 1 := by rw [hstep]
  refine ⟨by rw [hstep]; rfl, by decide, hpc1, fun m hm => ?_⟩
  exact run_halted env junk (n + 1) 1 hpc1 m hm

/-- C2 in the run where the third call to stream 1 fails: the state after 8
steps is about to issue that call. -/
theorem negative_write_is_fatal_witness :
    (run env_third_fails (fun _ => 0) 8).pc = Pc.call Site.first (do_write_enter 1 0 1048576) ∧
    (do_write_enter 1 0 1048576).written < (do_write_enter 1 0 1048576).buf_len ∧
    sys_write env_third_fails (run env_third_fails (fun _ => 0) 8).tr
      (data_call (do_write_enter 1 0 1048576)) < 0 ∧
    ((run env_third_fails (fun _ => 0) (8 + 1)).tr
      = (run env_third_fails (fun _ => 0) 8).tr
        ++ [⟨data_call (do_write_enter 1 0 1048576),
              sys_write env_third_fails (run env_third_fails (fun _ => 0) 8).tr
                (data_call (do_write_enter 1 0 1048576))⟩,
            ⟨⟨2, Src.str ("write failed\n".toList.map Char.toNat), 13⟩,
              sys_write env_third_fails ((run env_third_fails (fun _ => 0) 8).tr
                ++ [⟨data_call (do_write_enter 1 0 1048576),
                      sys_write env_third_fails (run env_third_fails (fun _ => 0) 8).tr
                        (data_call (do_write_enter 1 0 1048576))⟩])
                diag_call⟩] ∧
    ("write failed\n".toList.map Char.toNat).length = 13 ∧
    (run env_third_fails (fun _ => 0) (8 + 1)).pc = Pc.halted 1 ∧
    ∀ m, 8 + 1 ≤ m →
      run env_third_fails (fun _ => 0) m = run env_third_fails (fun _ => 0) (8 + 1)) :=
  ⟨by decide, by decide, by decide,
    negative_write_is_fatal env_third_fails (fun _ => 0) 8 Site.first
      (do_write_enter 1 0 1048576) (by decide) (by decide) (by decide)⟩

/-! ## The process never ends on its own except by the fatal path -/

/-- A terminated process ended with status 1, and its trace ends with a data
call that returned a negative value followed by the diagnostic call. -/
theorem run_halted_cause (env : Env) (junk : Nat → Int) (n : Nat) :
    ∀ c, (run env junk n).pc = Pc.halted c → c = 1 ∧ ∃ tr0 d, is_data d.call = true
      ∧ d.result < 0 ∧ d.result = sys_write env tr0 d.call
      ∧ (run env junk n).tr = tr0 ++ [d, ⟨diag_call, sys_write env (tr0 ++ [d]) diag_call⟩] := by
  induction n with
  | zero =>
    intro c h
    simp [run, main_start] at h
  | succ n ih =>
    intro c h
    rcases hprev : (run env junk n).pc with ⟨site, f⟩ | c0
    · rw [run_succ] at h ⊢
      by_cases hw : f.written < f.buf_len
      · by_cases hr : sys_write env (run env junk n).tr (data_call f) < 0
        · rw [main_step_exited env _ site f _ 1 hprev (do_write_step_fail env _ f hw hr)]
            at h ⊢
          simp only [Pc.halted.injEq] at h
          exact ⟨h.symm, (run env junk n).tr, ⟨data_call f, _⟩, rfl, hr, rfl, rfl⟩
        · rw [main_step_looping env _ site f _ _ hprev (do_write_step_loop env _ f hw hr)]
            at h
          simp at h
      · rw [main_step_returned env _ site f _ hprev (do_write_step_return env _ f hw)] at h
        simp at h
    · rw [run_succ, main_step_halted env _ c0 hprev] at h ⊢
      exact ih c h

/-- C8: whatever the write primitive returns, the process never terminates
with status 0; when it has terminated, the status is 1 and the last two
events of its trace are a data call that returned a negative value and the
diagnostic call; as long as no data call in its trace has returned a negative
value, it has not terminated; and under a primitive that never answers a data
call with a negative value it has terminated at no step. -/
theorem exit_only_after_failed_write (env : Env) (junk : Nat → Int) (n : Nat) :
    (run env junk n).pc ≠ Pc.halted 0 ∧
    (∀ c, (run env junk n).pc = Pc.halted c → c = 1 ∧ ∃ tr0 d, is_data d.call = true
      ∧ d.result < 0 ∧ d.result = sys_write env tr0 d.call
      ∧ (run env junk n).tr = tr0 ++ [d, ⟨diag_call, sys_write env (tr0 ++ [d]) diag_call⟩]) ∧
    ((∀ e ∈ (run env junk n).tr, is_data e.call = true → 0 ≤ e.result) →
      ∀ c, (run env junk n).pc ≠ Pc.halted c) ∧
    ((∀ tr c, is_data c = true → 0 ≤ sys_write env tr c) →
      ∀ c, (run env junk n).pc ≠ Pc.halted c) := by
  refine ⟨fun h => ?_, run_halted_cause env junk n, fun hall c h => ?_, fun hall c h => ?_⟩
  · have := (run_halted_cause env junk n 0 h).1
    omega
  · obtain ⟨_, tr0, d, hd, hneg, _, htr⟩ := run_halted_cause env junk n c h
    have := hall d (by rw [htr]; simp) hd
    omega
  · obtain ⟨_, tr0, d, hd, hneg, hres, _⟩ := run_halted_cause env junk n c h
    have := hall tr0 d.call hd
    omega

/-- C8 after 5 steps of the run in which every call writes nothing: no data
call in the trace has a negative result, and the process has not terminated. -/
theorem exit_only_after_failed_write_witness :
    (∀ e ∈ (run env_zero (fun _ => 0) 5).tr, is_data e.call = true → 0 ≤ e.result) ∧
    (∀ tr c, is_data c = true → 0 ≤ sys_write env_zero tr c) ∧
    (run env_zero (fun _ => 0) 5).pc ≠ Pc.halted 0 ∧
    (∀ c, (run env_zero (fun _ => 0) 5).pc ≠ Pc.halted c) ∧
    (∀ c, (run env_zero (fun _ => 0) 5).pc ≠ Pc.halted c) :=
  ⟨by decide, fun _ _ _ => (by decide : (0 : Int) ≤ toInt 0),
    (exit_only_after_failed_write env_zero (fun _ => 0) 5).1,
    (exit_only_after_failed_write env_zero (fun _ => 0) 5).2.2.1 (by decide),
    (exit_only_after_failed_write env_zero (fun _ => 0) 5).2.2.2
      (fun _ _ _ => (by decide : (0 : Int) ≤ toInt 0))⟩

/-! ## Scenario A: every call writes all it was asked to -/

theorem site_of_succ (k : Nat) : site_of (k + 1) = (site_of k).next := by
  unfold site_of
  rcases Nat.mod_two_eq_zero_or_one k with h | h
  · have h2 : (k + 1) % 2 = 1 := by omega
    simp [h, h2, Site.next]
  · have h2 : (k + 1) % 2 = 0 := by omega
    simp [h, h2, Site.next]

theorem site_of_fd (k : Nat) : (site_of k).fd = if k % 2 = 0 then 1 else 2 := by
  unfold site_of
  split <;> rfl

/-- With full writes every `do_write` takes two steps: its single call, and
the loop test that lets it return. -/
theorem run_full_even (env : Env) (junk : Nat → Int)
    (hfull : ∀ tr c, 0 ≤ c.count → c.count ≤ INT_MAX → sys_write env tr c = c.count)
    (n : Nat) :
    (run env junk (2 * n)).tr
        = (List.range n).map (fun k => ⟨⟨(site_of k).fd, Src.mem 0, 1048576⟩, 1048576⟩)
      ∧ (run env junk (2 * n)).pc
        = Pc.call (site_of n) (do_write_enter (site_of n).fd 0 1048576) := by
  induction n with
  | zero => constructor <;> simp [run, main_start, MB_val, site_of, Site.fd]
  | succ n ih =>
    obtain ⟨htr, hpc⟩ := ih
    rw [frame_at_zero] at hpc
    have hr : sys_write env (run env junk (2 * n)).tr
        ⟨(site_of n).fd, Src.mem (0 + 0), 1048576 - 0⟩ = 1048576 :=
      hfull _ _ (by show (0 : Int) ≤ 1048576 - 0; decide)
        (by show (1048576 : Int) - 0 ≤ INT_MAX; decide)
    have h1 := main_step_looping env (run env junk (2 * n)) (site_of n) _ _ _ hpc
      (do_write_step_ok env _ (site_of n).fd 0 1048576 0 0 1048576 (by decide) (by decide)
        (by decide) hr (by decide) (by decide))
    rw [← run_succ] at h1
    have hpc1 : (run env junk (2 * n + 1)).pc
        = Pc.call (site_of n) (frame_at (site_of n).fd 0 1048576 (0 + 1048576) 1048576) := by
      rw [h1]
    have h2 := main_step_returned env (run env junk (2 * n + 1)) (site_of n) _ _ hpc1
      (do_write_step_done env _ (site_of n).fd 0 1048576 (0 + 1048576) 1048576 (by decide))
    rw [← run_succ] at h2
    have h3 : 2 * (n + 1) = 2 * n + 1 + 1 := by ring
    rw [h3, h2]
    refine ⟨?_, ?_⟩
    · show (run env junk (2 * n + 1)).tr = _
      rw [h1]
      simp [htr, List.range_succ]
    · simp [site_of_succ, MB_val]

/-- C5: when every call for a count in the range of `int` writes all it was
asked to, for every `n` the process has after `2 n` steps made exactly `n`
calls; the `k`-th of them (from 0) asks stream 1 for even `k` and stream 2
for odd `k` for the 1,048,576 bytes at the start of the buffer, which writes
them all; the buffer holds 1,048,576 bytes, each `0x0A`; the process is about
to enter the next full write; and at no step at all has it terminated. -/
theorem full_writes_alternate (env : Env) (junk : Nat → Int)
    (hfull : ∀ tr c, 0 ≤ c.count → c.count ≤ INT_MAX → sys_write env tr c = c.count)
    (n : Nat) :
    (run env junk (2 * n)).tr
      = (List.range n).map
          (fun k => ⟨⟨if k % 2 = 0 then 1 else 2, Src.mem 0, 1048576⟩, 1048576⟩) ∧
    (run env junk (2 * n)).pc
      = Pc.call (if n % 2 = 0 then Site.first else Site.second)
          (do_write_enter (if n % 2 = 0 then 1 else 2) 0 1048576) ∧
    (run env junk (2 * n)).buf.size = 1048576 ∧
    (∀ i, i < 1048576 → (run env junk (2 * n)).buf.byte i = 0x0A) ∧
    ∀ m c, (run env junk m).pc ≠ Pc.halted c := by
  obtain ⟨htr, hpc⟩ := run_full_even env junk hfull n
  obtain ⟨h1, h2⟩ := main_fill_spec MB 0 (alloca MB junk) rfl
  refine ⟨?_, ?_, ?_, ?_, ?_⟩
  · rw [htr]
    simp only [site_of_fd]
  · rw [hpc, site_of_fd]
    rfl
  · rw [run_buf, h1]
    rfl
  · intro i hi
    rw [run_buf, h2 i, if_pos ⟨Nat.zero_le _, hi⟩]
  · intro m c hc
    have hlater := run_halted env junk m c hc (2 * m) (by omega)
    have hpc2 := (run_full_even env junk hfull m).2
    rw [hlater, hc] at hpc2
    exact Pc.noConfusion hpc2

theorem env_full_writes_all :
    ∀ tr c, 0 ≤ c.count → c.count ≤ INT_MAX → sys_write env_full tr c = c.count := by
  intro tr c h1 h2
  have h3 : INT_MIN ≤ c.count := by
    unfold INT_MIN
    omega
  exact toInt_of_range c.count h3 h2

/-- C5 for the first three calls under the primitive that writes all it is
asked to. -/
theorem full_writes_alternate_witness :
    (∀ tr c, 0 ≤ c.count → c.count ≤ INT_MAX → sys_write env_full tr c = c.count) ∧
    (run env_full (fun _ => 0) (2 * 3)).tr
      = (List.range 3).map
          (fun k => ⟨⟨if k % 2 = 0 then 1 else 2, Src.mem 0, 1048576⟩, 1048576⟩) ∧
    (run env_full (fun _ => 0) (2 * 3)).pc
      = Pc.call (if 3 % 2 = 0 then Site.first else Site.second)
          (do_write_enter (if 3 % 2 = 0 then 1 else 2) 0 1048576) ∧
    (run env_full (fun _ => 0) (2 * 3)).buf.size = 1048576 ∧
    (∀ i, i < 1048576 → (run env_full (fun _ => 0) (2 * 3)).buf.byte i = 0x0A) ∧
    ∀ m c, (run env_full (fun _ => 0) m).pc ≠ Pc.halted c :=
  ⟨env_full_writes_all, full_writes_alternate env_full (fun _ => 0) env_full_writes_all 3⟩

/-! ## Scenario B: the third call to stream 1 fails -/

/-- C6: when every call writes all it was asked to except that the third call
to stream 1 returns -1, the process terminates at its 9th step with status 1.
Its whole trace is then: a full write of the 1,048,576-byte buffer to stream
1, one to stream 2, the same two again, the call to stream 1 that returned -1,
and last the 13-byte diagnostic call to stream 2.  Before that step it had not
terminated, and it makes no call afterwards. -/
theorem third_stream1_write_fails (junk : Nat → Int) :
    (run env_third_fails junk 9).tr
      = [⟨⟨1, Src.mem 0, 1048576⟩, 1048576⟩, ⟨⟨2, Src.mem 0, 1048576⟩, 1048576⟩,
         ⟨⟨1, Src.mem 0, 1048576⟩, 1048576⟩, ⟨⟨2, Src.mem 0, 1048576⟩, 1048576⟩,
         ⟨⟨1, Src.mem 0, 1048576⟩, -1⟩,
         ⟨⟨2, Src.str ("write failed\n".toList.map Char.toNat), 13⟩, 13⟩] ∧
    ("write failed\n".toList.map Char.toNat).length = 13 ∧
    (run env_third_fails junk 9).pc = Pc.halted 1 ∧
    (run env_third_fails junk 8).pc = Pc.call Site.first (do_write_enter 1 0 1048576) ∧
    (∀ m c, m ≤ 8 → (run env_third_fails junk m).pc ≠ Pc.halted c) ∧
    ∀ m, 9 ≤ m → run env_third_fails junk m = run env_third_fails junk 9 := by
  have h9 : (run env_third_fails junk 9).pc = Pc.halted 1 := by
    rw [(run_obs env_third_fails junk (fun _ => 0) 9).2]
    decide
  have h8 : (run env_third_fails junk 8).pc
      = Pc.call Site.first (do_write_enter 1 0 1048576) := by
    rw [(run_obs env_third_fails junk (fun _ => 0) 8).2]
    decide
  refine ⟨?_, by decide, h9, h8, ?_, fun m hm => run_halted env_third_fails junk 9 1 h9 m hm⟩
  · rw [(run_obs env_third_fails junk (fun _ => 0) 9).1]
    decide
  · intro m c hm hc
    rw [run_halted env_third_fails junk m c hc 8 hm, hc] at h8
    exact Pc.noConfusion h8

/-! ## Scenario C: the chunk goes out in pieces of 65536 bytes -/

/-- From the entry of a `do_write` of `main`, when calls for at least 65536
bytes write 65536 bytes, the first `j ≤ 16` steps are `j` calls at the
offsets `0, 65536, ...`, each for the rest of the buffer. -/
theorem run_pieces (env : Env) (junk : Nat → Int)
    (henv : ∀ tr c, 65536 ≤ c.count → c.count ≤ INT_MAX → sys_write env tr c = 65536)
    (n : Nat) (site : Site)
    (hpc : (run env junk n).pc = Pc.call site (do_write_enter site.fd 0 1048576))
    (j : Nat) (hj : j ≤ 16) :
    (run env junk (n + j)).tr = (run env junk n).tr ++ (List.range j).map (piece site.fd)
      ∧ ∃ ret, (run env junk (n + j)).pc
        = Pc.call site (frame_at site.fd 0 1048576 (65536 * (j : Int)) ret) := by
  induction j with
  | zero =>
    refine ⟨by simp, 0, ?_⟩
    rw [Nat.add_zero, hpc, frame_at_zero]
    simp
  | succ j ih =>
    obtain ⟨htr, ret, hpcj⟩ := ih (by omega)
    have hr : sys_write env (run env junk (n + j)).tr
        ⟨site.fd, Src.mem (0 + 65536 * (j : Int)), 1048576 - 65536 * (j : Int)⟩ = 65536 :=
      henv _ _ (by show (65536 : Int) ≤ 1048576 - 65536 * (j : Int); omega)
        (by show (1048576 : Int) - 65536 * (j : Int) ≤ INT_MAX; unfold INT_MAX; omega)
    have h1 := main_step_looping env (run env junk (n + j)) site _ _ _ hpcj
      (do_write_step_ok env _ site.fd 0 1048576 (65536 * (j : Int)) ret 65536 (by omega)
        (by omega) (by decide) hr (by decide) (by omega))
    rw [← run_succ] at h1
    rw [show n + (j + 1) = n + j + 1 from rfl, h1]
    refine ⟨?_, 65536, ?_⟩
    · simp only [htr, List.range_succ, List.map_append, List.map_cons, List.map_nil,
        List.append_assoc, piece, zero_add]
    · simp only [Nat.cast_add, Nat.cast_one, mul_add, mul_one]

/-- C7: when every call for at least 65536 bytes (within `int`) writes 65536
bytes, a `do_write` of `main` entered at step `n` makes exactly 16 calls, all
to its own stream: the `i`-th at offset `65536 i` for the `1048576 - 65536 i`
bytes up to the end of the buffer.  No step aborts; after the 16th call
`written` is 1,048,576 and `remaining` is 0; every byte of the buffer was
transferred by exactly one of the 16 calls; step 17 makes no call and enters
the `do_write` of the other statement, and step 18 is its first call, for the
whole buffer, to the other stream. -/
theorem chunk_in_sixteen_pieces (env : Env) (junk : Nat → Int)
    (henv : ∀ tr c, 65536 ≤ c.count → c.count ≤ INT_MAX → sys_write env tr c = 65536)
    (n : Nat) (site : Site)
    (hpc : (run env junk n).pc = Pc.call site (do_write_enter site.fd 0 1048576)) :
    (∀ j, j ≤ 16 →
      (run env junk (n + j)).tr
        = (run env junk n).tr ++ (List.range j).map (fun i =>
            ⟨⟨site.fd, Src.mem (65536 * (i : Int)), 1048576 - 65536 * (i : Int)⟩, 65536⟩)
      ∧ ∃ ret, (run env junk (n + j)).pc
        = Pc.call site (Frame.mk site.fd 0 1048576 (65536 * (j : Int)) (65536 * (j : Int))
            (1048576 - 65536 * (j : Int)) ret)) ∧
    (∃ ret, (run env junk (n + 16)).pc
      = Pc.call site (Frame.mk site.fd 0 1048576 1048576 1048576 0 ret)) ∧
    (∀ b : Int, 0 ≤ b → b < 1048576 →
      ∃! i : Nat, ∃ e, ((List.range 16).map (fun i : Nat =>
          (⟨⟨site.fd, Src.mem (65536 * (i : Int)), 1048576 - 65536 * (i : Int)⟩, 65536⟩
            : Event)))[i]? = some e ∧ covers e b = true) ∧
    (run env junk (n + 17)).tr = (run env junk (n + 16)).tr ∧
    (run env junk (n + 17)).pc
      = Pc.call site.next (do_write_enter site.next.fd 0 1048576) ∧
    (run env junk (n + 18)).tr
      = (run env junk (n + 16)).tr ++ [⟨⟨site.next.fd, Src.mem 0, 1048576⟩, 65536⟩] := by
  have hrun := run_pieces env junk henv n site hpc
  obtain ⟨htr16, ret16, hpc16⟩ := hrun 16 (le_refl _)
  have h17 := main_step_returned env (run env junk (n + 16)) site _ _ hpc16
    (do_write_step_done env _ site.fd 0 1048576 _ ret16 (by decide))
  rw [← run_succ] at h17
  have hpc17 : (run env junk (n + 17)).pc
      = Pc.call site.next (frame_at site.next.fd 0 1048576 0 0) := by
    rw [show n + 17 = n + 16 + 1 from rfl, h17, ← frame_at_zero, MB_val]
  have hr : sys_write env (run env junk (n + 17)).tr
      ⟨site.next.fd, Src.mem (0 + 0), 1048576 - 0⟩ = 65536 :=
    henv _ _ (by show (65536 : Int) ≤ 1048576 - 0; decide)
      (by show (1048576 : Int) - 0 ≤ INT_MAX; decide)
  have h18 := main_step_looping env (run env junk (n + 17)) site.next _ _ _ hpc17
    (do_write_step_ok env _ site.next.fd 0 1048576 0 0 65536 (by decide) (by decide)
      (by decide) hr (by decide) (by decide))
  rw [← run_succ] at h18
  have htr17 : (run env junk (n + 17)).tr = (run env junk (n + 16)).tr := by
    rw [show n + 17 = n + 16 + 1 from rfl, h17]
  refine ⟨fun j hj => ?_, ⟨ret16, ?_⟩, ?_, htr17, ?_, ?_⟩
  · obtain ⟨htrj, retj, hpcj⟩ := hrun j hj
    exact ⟨htrj, retj, by rw [hpcj]; simp [frame_at]⟩
  · rw [hpc16]
    simp [frame_at]
  · intro b hb0 hb1
    refine ⟨(b / 65536).toNat, ⟨piece site.fd (b / 65536).toNat, ?_, ?_⟩, ?_⟩
    · have hlt : (b / 65536).toNat < 16 := by omega
      simp [piece, hlt]
    · simp only [covers, piece, decide_eq_true_eq]
      omega
    · rintro i ⟨e, he, hcov⟩
      simp only [List.getElem?_map, List.getElem?_range, Option.map_eq_some'] at he
      obtain ⟨k, hk, hek⟩ := he
      by_cases hi : i < 16
      · rw [List.getElem?_range hi] at hk
        simp only [Option.some.injEq] at hk
        subst hk
        subst hek
        simp only [covers, decide_eq_true_eq] at hcov
        omega
      · rw [List.getElem?_eq_none (by simp; omega)] at hk
        simp at hk
  · rw [hpc17, ← frame_at_zero]
  · rw [show n + 18 = n + 17 + 1 from rfl, h18, htr17]
    simp

theorem env_pieces_writes_pieces :
    ∀ tr c, 65536 ≤ c.count → c.count ≤ INT_MAX → sys_write env_pieces tr c = 65536 := by
  intro tr c h1 h2
  have hmin : min c.count 65536 = 65536 := min_eq_right h1
  simp only [sys_write, env_pieces, hmin]
  decide

/-- C7 for the first `do_write` of the process under the primitive that
writes at most 65536 bytes per call. -/
theorem chunk_in_sixteen_pieces_witness :
    (∀ tr c, 65536 ≤ c.count → c.count ≤ INT_MAX → sys_write env_pieces tr c = 65536) ∧
    (run env_pieces (fun _ => 0) 0).pc
      = Pc.call Site.first (do_write_enter Site.first.fd 0 1048576) ∧
    ((∀ j, j ≤ 16 →
      (run env_pieces (fun _ => 0) (0 + j)).tr
        = (run env_pieces (fun _ => 0) 0).tr ++ (List.range j).map (fun i =>
            ⟨⟨Site.first.fd, Src.mem (65536 * (i : Int)), 1048576 - 65536 * (i : Int)⟩,
              65536⟩)
      ∧ ∃ ret, (run env_pieces (fun _ => 0) (0 + j)).pc
        = Pc.call Site.first (Frame.mk Site.first.fd 0 1048576 (65536 * (j : Int))
            (65536 * (j : Int)) (1048576 - 65536 * (j : Int)) ret)) ∧
    (∃ ret, (run env_pieces (fun _ => 0) (0 + 16)).pc
      = Pc.call Site.first (Frame.mk Site.first.fd 0 1048576 1048576 1048576 0 ret)) ∧
    (∀ b : Int, 0 ≤ b → b < 1048576 →
      ∃! i : Nat, ∃ e, ((List.range 16).map (fun i : Nat =>
          (⟨⟨Site.first.fd, Src.mem (65536 * (i : Int)), 1048576 - 65536 * (i : Int)⟩, 65536⟩
            : Event)))[i]? = some e ∧ covers e b = true) ∧
    (run env_pieces (fun _ => 0) (0 + 17)).tr = (run env_pieces (fun _ => 0) (0 + 16)).tr ∧
    (run env_pieces (fun _ => 0) (0 + 17)).pc
      = Pc.call Site.first.next (do_write_enter Site.first.next.fd 0 1048576) ∧
    (run env_pieces (fun _ => 0) (0 + 18)).tr
      = (run env_pieces (fun _ => 0) (0 + 16)).tr
        ++ [⟨⟨Site.first.next.fd, Src.mem 0, 1048576⟩, 65536⟩]) :=
  ⟨env_pieces_writes_pieces, by decide,
    chunk_in_sixteen_pieces env_pieces (fun _ => 0) env_pieces_writes_pieces 0 Site.first
      (by decide)⟩

end Nasty
